import Mathlib

/-!
# Verification of the guitar2sax offline audio pipeline

Shallow embedding of `src/services/audioUtils.ts`: the AMDF pitch detector,
median smoothing, note segmentation, the offline synthesis context, the WAV
(linear-PCM container) encoder and the MIDI (note-event container) encoder.

Modelling conventions:
* JS `number` samples and times are embedded as `ℚ` (every finite float is a
  rational); quantities produced by `Math.sqrt` / `Math.log2` / `Math.pow`
  are embedded in `ℝ`.
* `Math.sqrt(x) < c` gates on nonnegative `x` are embedded either directly
  (over `ℝ`) or as the equivalent squared comparison `x < c^2` (over `ℚ`,
  justified by `sq_gate_iff` below).
* JS array reads are embedded with `List.getD _ 0`; every read reached by the
  pipeline is in bounds, see the comments at the individual definitions.
-/

/-- The `NoteEvent` record of `types.ts` / `audioUtils.ts`:
`{ note, start, duration, velocity }`.  `α` is the numeric carrier for the
time/level fields (`ℚ` for exact inputs, `ℝ` inside the extraction pipeline
whose velocities come from `Math.sqrt`). -/
structure NoteEv (α : Type) where
  note : ℤ
  start : α
  duration : α
  velocity : α
deriving DecidableEq

/-! ## WAV encoder (`audioBufferToWav`, `src/services/audioUtils.ts:62-115`) -/

/-- `Math.max(-1, Math.min(1, v))` — the clamp applied to each sample. -/
def wavClamp (x : ℚ) : ℚ := max (-1) (min 1 x)

/-- JS `| 0` on a value of magnitude `< 2^31`: truncation toward zero.
All values it is applied to here lie in `[-32768, 32767]`, so the mod-`2^32`
wrap of `ToInt32` never fires. -/
def ratTrunc (q : ℚ) : ℤ := if q < 0 then ⌈q⌉ else ⌊q⌋

/-- One sample conversion of `audioBufferToWav`:
`sample = Math.max(-1, Math.min(1, v)); sample = (0.5 + sample < 0 ? sample * 32768 : sample * 32767) | 0`.
Note the source condition is `(0.5 + sample) < 0`, i.e. `sample < -0.5`. -/
def wavSample (x : ℚ) : ℤ :=
  let sample := wavClamp x
  ratTrunc (if 1/2 + sample < 0 then sample * 32768 else sample * 32767)

/-- The conversion as the spec words it (claim C2): clamp, then
`negative: sample*32768`, `non-negative: sample*32767`, truncated.
Kept only to compare against `wavSample`. -/
def specScaledSample (x : ℚ) : ℤ :=
  let sample := wavClamp x
  ratTrunc (if sample < 0 then sample * 32768 else sample * 32767)

/-- Little-endian bytes of `view.setUint16`. -/
def u16le (n : ℕ) : List ℕ := [n % 256, n / 256 % 256]

/-- Little-endian bytes of `view.setUint32`. -/
def u32le (n : ℕ) : List ℕ :=
  [n % 256, n / 256 % 256, n / 65536 % 256, n / 16777216 % 256]

/-- A 16-bit signed value as two little-endian two's-complement bytes
(`view.setInt16(_, v, true)`). -/
def int16le (v : ℤ) : List ℕ := u16le (v % 65536).toNat

/-- Decode a little-endian 32-bit field from the first four bytes of a list
(reader side, used to state what the header fields declare). -/
def u32dec (bytes : List ℕ) : ℕ :=
  bytes.getD 0 0 + 256 * bytes.getD 1 0 + 65536 * bytes.getD 2 0 +
    16777216 * bytes.getD 3 0

/-- An `AudioBuffer`: sample rate, frame count (`buffer.length`) and one
sample list per channel (`buffer.getChannelData(i)`).
`numberOfChannels` is `channels.length`. -/
structure AudioBuf where
  sampleRate : ℕ
  numFrames : ℕ
  channels : List (List ℚ)

/-- `audioBufferToWav` (`src/services/audioUtils.ts:62-115`) as the byte list
of the produced `ArrayBuffer`: the 44-byte RIFF/fmt/data header followed by
the interleaved 16-bit samples.  `length - pos - 4` at the data-chunk write
has `pos = 40`, hence the `length - 44` field.  An out-of-range
`channels[i][pos]` read is embedded as `0`, which produces the same bytes as
the JS `NaN` path (`NaN` fails both comparisons and `NaN | 0 = 0`). -/
def audioBufferToWav (buf : AudioBuf) : List ℕ :=
  let numOfChan := buf.channels.length
  let length := buf.numFrames * numOfChan * 2 + 44
  let header :=
    u32le 0x46464952 ++ u32le (length - 8) ++ u32le 0x45564157 ++
    u32le 0x20746d66 ++ u32le 16 ++ u16le 1 ++ u16le numOfChan ++
    u32le buf.sampleRate ++ u32le (buf.sampleRate * 2 * numOfChan) ++
    u16le (numOfChan * 2) ++ u16le 16 ++
    u32le 0x61746164 ++ u32le (length - 44)
  let dataBytes := (List.range buf.numFrames).flatMap fun pos =>
    (List.range numOfChan).flatMap fun i =>
      int16le (wavSample ((buf.channels.getD i []).getD pos 0))
  header ++ dataBytes

/-! ## AMDF pitch detector (`detectPitchAMDF`, `src/services/audioUtils.ts:546-575`) -/

/-- `rms` accumulator of `detectPitchAMDF` before the square root:
`(Σ buffer[i]^2) / buffer.length`.  The source gate `Math.sqrt(this) < 0.01`
is embedded as `this < 1/10000` (equivalent for a nonnegative radicand,
see `sq_gate_iff`). -/
def rmsSqOf (b : List ℚ) : ℚ := ((b.map fun x => x * x).sum) / b.length

/-- Number of iterations of the stride-2 inner loop
`for (i = 0; i < len - tau; i += 2)`. -/
def numDiffTerms (len tau : ℕ) : ℕ := (len - tau + 1) / 2

/-- The index sequence `0, 2, 4, ...` visited by the inner loop. -/
def evenIdx (k : ℕ) : List ℕ := List.range' 0 k 2

/-- The inner loop of `detectPitchAMDF` with its early exit:
`currentSum += |buffer[i] - buffer[i+tau]|; if (currentSum >= minVal) break`.
`minVal = none` is the initial `Infinity`.  The fold state carries the
accumulator and the broken flag. -/
def diffSumEarly (b : List ℚ) (tau : ℕ) (minVal : Option ℚ) : ℚ :=
  ((evenIdx (numDiffTerms b.length tau)).foldl
    (fun st i =>
      if st.2 then st
      else
        let acc := st.1 + |b.getD i 0 - b.getD (i + tau) 0|
        (acc, match minVal with | none => false | some m => decide (m ≤ acc)))
    ((0 : ℚ), false)).1

/-- The outer lag scan of `detectPitchAMDF`: state `(minVal, bestPeriod)`,
starting at `(Infinity, 0)`; a lag is adopted when its (early-exited) sum is
strictly below `minVal`. -/
def amdfScan (b : List ℚ) (taus : List ℕ) : Option ℚ × ℕ :=
  taus.foldl
    (fun st tau =>
      let s := diffSumEarly b tau st.1
      match st.1 with
      | none => (some s, tau)
      | some m => if s < m then (some s, tau) else st)
    (none, 0)

/-- The candidate lag range `[floor(sr/1200), floor(sr/75)]` of
`detectPitchAMDF` (`minFreq = 75`, `maxFreq = 1200`).  The pipeline only
calls this with a positive sample rate, for which both bounds are
nonnegative, so the `Int.toNat` casts are exact. -/
def pitchTaus (sr : ℚ) : List ℕ :=
  let minPeriod := (⌊sr / 1200⌋).toNat
  let maxPeriod := (⌊sr / 75⌋).toNat
  List.range' minPeriod (maxPeriod + 1 - minPeriod) 1

/-- `detectPitchAMDF(buffer, sampleRate)`: silence gate, lag scan, then
`sampleRate / bestPeriod` (or `0` when `bestPeriod` is `0`). -/
def detectPitchAMDF (b : List ℚ) (sr : ℚ) : ℚ :=
  if rmsSqOf b < 1/10000 then 0
  else
    let best := (amdfScan b (pitchTaus sr)).2
    if best = 0 then 0 else sr / best

/-- The full (no early exit) difference sum at a lag — what the early-exited
loop is an optimisation of. -/
def diffSumFull (b : List ℚ) (tau : ℕ) : ℚ :=
  ((evenIdx (numDiffTerms b.length tau)).map
    fun i => |b.getD i 0 - b.getD (i + tau) 0|).sum

/-- The average sample difference at a lag (the claim C1 quantity): the full
difference sum divided by the number of compared sample pairs. -/
def avgDiff (b : List ℚ) (tau : ℕ) : ℚ :=
  diffSumFull b tau / numDiffTerms b.length tau

/-- The reference lag scan using full sums, same adoption rule. -/
def bestLagFull (b : List ℚ) (taus : List ℕ) : Option ℚ × ℕ :=
  taus.foldl
    (fun st tau =>
      let s := diffSumFull b tau
      match st.1 with
      | none => (some s, tau)
      | some m => if s < m then (some s, tau) else st)
    (none, 0)

/-- "Every candidate lag's average difference exceeds `c`" — in particular
the minimal one does. -/
def minAvgDiffAbove (b : List ℚ) (sr : ℚ) (c : ℚ) : Prop :=
  ∀ tau ∈ pitchTaus sr, c < avgDiff b tau

instance (b : List ℚ) (sr c : ℚ) : Decidable (minAvgDiffAbove b sr c) :=
  List.decidableBAll _ _

/-- A concrete non-periodic analysis frame (33 samples of `±1`): its RMS is
exactly `1` and every candidate lag at `sampleRate = 1200` has average
difference at least `10/11 > 4/5`. -/
def noisyFrame : List ℚ :=
  [-1, 1, 1, 1, 1, -1, -1, 1, -1, 1, -1, 1, -1, -1, -1, 1, 1,
    1, -1, 1, 1, -1, 1, 1, 1, 1, -1, 1, 1, -1, -1, -1, -1]

/-! ## Median filter (`medianFilter`, `src/services/audioUtils.ts:531-544`) -/

/-- The in-bounds window values around index `i`: `j` runs over
`-half .. half` (`half = Math.floor(windowSize / 2)`) and the out-of-range
indices are skipped. -/
def medianWindow (data : List ℤ) (half i : ℕ) : List ℤ :=
  (List.range (2 * half + 1)).filterMap fun (j : ℕ) =>
    let idx : ℤ := (i : ℤ) + (j : ℤ) - (half : ℤ)
    if 0 ≤ idx ∧ idx < (data.length : ℤ) then some (data.getD idx.toNat 0)
    else none

/-- `medianFilter(data, windowSize)`: per index, sort the window values
ascending (`sort((a, b) => a - b)`; on a totally ordered carrier the sorted
list is unique, so `insertionSort` is an exact model) and pick index
`Math.floor(length / 2)`. -/
def medianFilter (data : List ℤ) (windowSize : ℕ) : List ℤ :=
  let half := windowSize / 2
  (List.range data.length).map fun i =>
    let sortedVals := (medianWindow data half i).insertionSort (· ≤ ·)
    sortedVals.getD (sortedVals.length / 2) 0

/-! ## Note segmentation (`extractNotesFromBuffer`, `src/services/audioUtils.ts:179-217`) -/

/-- The `maxRms` scan of `addNote`: `for (j = startIndex; j < endIndex && j <
rmsFrames.length; j++)` taking the running maximum, started at `0`. -/
def maxRmsIn {α : Type} [LinearOrderedField α] (rms : List α) (s e : ℕ) : α :=
  ((List.range' s (min e rms.length - s)).map fun j => rms.getD j 0).foldl max 0

/-- The `addNote` closure: discard a run of duration `≤ 0.06` s, otherwise
append `{note, start: timeSteps[startIndex], duration, velocity:
max(0.3, min(1, maxRms * 4))}`. -/
def addNote {α : Type} [LinearOrderedField α] (ts rms : List α) (fd : α)
    (notes : List (NoteEv α)) (noteNumber : ℤ) (s e : ℕ) : List (NoteEv α) :=
  let startTime := ts.getD s 0
  let duration := ((e : α) - (s : α)) * fd
  if 3/50 < duration then
    let normalized := min 1 (maxRmsIn rms s e * 4)
    let velocity := max (3/10) normalized
    notes ++ [⟨noteNumber, startTime, duration, velocity⟩]
  else notes

/-- The run-length grouping loop over the smoothed sequence, with state
`(currentNote, currentStartIndex, notes)`; on the value change at index `i`
the previous run is closed (emitted when its value was positive), and the
run still open at the end is closed against index `smoothed.length`. -/
def segLoop {α : Type} [LinearOrderedField α] (ts rms : List α) (fd : α) :
    List ℤ → ℕ → ℤ → ℕ → List (NoteEv α) → List (NoteEv α)
  | [], i, cur, curStart, notes =>
      if 0 < cur then addNote ts rms fd notes cur curStart i else notes
  | v :: rest, i, cur, curStart, notes =>
      if v ≠ cur then
        segLoop ts rms fd rest (i + 1) v i
          (if 0 < cur then addNote ts rms fd notes cur curStart i else notes)
      else segLoop ts rms fd rest (i + 1) cur curStart notes

/-- Segmentation of a smoothed per-frame note sequence (the code after the
`medianFilter` call), with `currentNote = 0`, `currentStartIndex = 0` and an
empty note list as the initial state. -/
def segmentNotes {α : Type} [LinearOrderedField α] (ts rms : List α) (fd : α)
    (smoothed : List ℤ) : List (NoteEv α) :=
  segLoop ts rms fd smoothed 0 0 0 []

/-- Maximal runs `(value, startIndex, endIndexExclusive)` of a sequence,
seeded like the loop with a current value `0` starting at `0`; the run open
at the end is closed at the sequence length. -/
def runsAux : List ℤ → ℕ → ℤ → ℕ → List (ℤ × ℕ × ℕ)
  | [], i, cur, s => [(cur, s, i)]
  | v :: rest, i, cur, s =>
      if v = cur then runsAux rest (i + 1) cur s
      else (cur, s, i) :: runsAux rest (i + 1) v i

/-- The runs of a smoothed sequence as the segmentation loop sees them. -/
def runsOf (l : List ℤ) : List (ℤ × ℕ × ℕ) := runsAux l 0 0 0

/-- The spec-side per-run rule (claim C5): a run becomes a Note Event iff its
value is a pitch (positive) and its duration strictly exceeds 60 ms; the
event fields are the ones `addNote` writes. -/
def runToEvent {α : Type} [LinearOrderedField α] (ts rms : List α) (fd : α)
    (r : ℤ × ℕ × ℕ) : Option (NoteEv α) :=
  if 0 < r.1 ∧ 3/50 < ((r.2.2 : α) - (r.2.1 : α)) * fd then
    some ⟨r.1, ts.getD r.2.1 0, ((r.2.2 : α) - (r.2.1 : α)) * fd,
      max (3/10) (min 1 (maxRmsIn rms r.2.1 r.2.2 * 4))⟩
  else none

/-! ## Note extraction (`extractNotesFromBuffer`, `src/services/audioUtils.ts:137-218`) -/

/-- The frame start offsets `i = 0, 256, 512, ...` while
`i < data.length - windowSize` (`windowSize = 1024`, `hopSize = 256`). -/
def frameStarts (dataLen : ℕ) : List ℕ :=
  List.range' 0 ((dataLen - 1024 + 255) / 256) 256

/-- `sumSqRaw` of one analysis frame: `Σ_{s<1024} rawData[i+s]^2`. -/
def frameSumSq (rawData : List ℚ) (i : ℕ) : ℚ :=
  ((List.range 1024).map fun s =>
    let val := rawData.getD (i + s) 0
    val * val).sum

/-- The frame RMS `Math.sqrt(sumSqRaw / windowSize)` (on the unfiltered
signal), used for the energy gate and later for the velocity. -/
noncomputable def frameRms (rawData : List ℚ) (i : ℕ) : ℝ :=
  Real.sqrt ((frameSumSq rawData i : ℝ) / 1024)

/-- One frame of the pitch loop: the RMS gate `rms > 0.02`, AMDF detection on
`data.slice(i, i + windowSize)` and the conversion
`midiNote = Math.round(69 + 12 * Math.log2(freq / 440))`, restricted to
`75 < freq < 1200`; `0` encodes silence/no pitch. -/
noncomputable def framePitch (data rawData : List ℚ) (sr : ℚ) (i : ℕ) : ℤ :=
  if 1/50 < frameRms rawData i then
    let freq := detectPitchAMDF ((data.drop i).take 1024) sr
    if 75 < freq ∧ freq < 1200 then
      round ((69 : ℝ) + 12 * Real.logb 2 ((freq : ℝ) / 440))
    else 0
  else 0

/-- The analysis and segmentation pipeline of `extractNotesFromBuffer` from
the low-pass filtered signal on: `data` stands for
`applyLowPassFilter(rawData, 700, sampleRate)` (whose coefficient
`alpha = dt/(rc+dt)` with `rc = 1/(2*pi*700)` is transcendental; every
theorem below quantifies over all values of `data`, hence covers the actual
filtered signal), `rawData` is the unfiltered channel.  Frame loop, 7-frame
median smoothing, then run-length segmentation with
`frameDuration = hopSize / sampleRate`. -/
noncomputable def extractNotesCore (data rawData : List ℚ) (sr : ℚ) :
    List (NoteEv ℝ) :=
  let fs := frameStarts data.length
  let pitchFrames : List ℤ := fs.map fun i => framePitch data rawData sr i
  let rmsFrames : List ℝ := fs.map fun i => frameRms rawData i
  let timeSteps : List ℝ := fs.map fun (i : ℕ) => (i : ℝ) / (sr : ℝ)
  let smoothed := medianFilter pitchFrames 7
  segmentNotes timeSteps rmsFrames ((256 : ℝ) / (sr : ℝ)) smoothed

/-! ## Offline synthesis (`createOfflineContext` and the three renderers,
`src/services/audioUtils.ts:233-501`) -/

/-- The buffer length of `createOfflineContext`:
`Math.ceil(Math.max(1, totalDuration + 2.0) * sampleRate)`. -/
def offlineLength (sampleRate totalDuration : ℚ) : ℕ :=
  (⌈max 1 (totalDuration + 2) * sampleRate⌉).toNat

/-- The offline context value: its fixed sample rate and buffer length. -/
structure OfflineCtx where
  sampleRate : ℚ
  length : ℕ

/-- `createOfflineContext(sampleRate, totalDuration)`.  The
`new OfflineAudioContext(1, length, sampleRate)` constructor is a platform
API (not repository code); it is modelled as failing exactly when the
requested sample rate is non-positive or the length is zero, and succeeding
otherwise.  The limiter/gain chain it sets up maps silence to silence and is
absorbed into the `master` stage of `renderInstrument`. -/
def createOfflineContext (sampleRate totalDuration : ℚ) :
    Except Unit OfflineCtx :=
  let length := offlineLength sampleRate totalDuration
  if sampleRate ≤ 0 ∨ length = 0 then .error ()
  else .ok ⟨sampleRate, length⟩

/-- Common shape of the three renderers: create the offline context, build
one signal graph per note and render.  WebAudio sums all per-note graphs at
the destination, so the rendered sample at index `n` is
`master (Σ_{note} voice note n)` where `voice note n` is the contribution of
that note's oscillator/filter/envelope/noise/reverb graph (transcendental
signal processing, abstracted as a function parameter) and `master` is the
shared `mainBus` gain plus limiter stage.  With an empty note list the sum
is empty, which is exactly what the source graph produces: no source node is
created or started. -/
def renderInstrument (master : ℚ → ℚ) (voice : NoteEv ℚ → ℕ → ℚ)
    (notes : List (NoteEv ℚ)) (sampleRate totalDuration : ℚ) :
    Except Unit (List ℚ) :=
  match createOfflineContext sampleRate totalDuration with
  | .error e => .error e
  | .ok ctx =>
      .ok ((List.range ctx.length).map fun n =>
        master ((notes.map fun ev => voice ev n).sum))

/-- `renderLocalSaxophoneSolo` (`src/services/audioUtils.ts:260-338`): the
square/sawtooth/FM-growl/noise graph per note is `voice`. -/
def renderLocalSaxophoneSolo (master : ℚ → ℚ) (voice : NoteEv ℚ → ℕ → ℚ)
    (notes : List (NoteEv ℚ)) (sampleRate totalDuration : ℚ) :
    Except Unit (List ℚ) :=
  renderInstrument master voice notes sampleRate totalDuration

/-- `renderLocalViolinSolo` (`src/services/audioUtils.ts:345-438`): the
detuned-ensemble/vibrato/bow-noise graph per note is `voice`. -/
def renderLocalViolinSolo (master : ℚ → ℚ) (voice : NoteEv ℚ → ℕ → ℚ)
    (notes : List (NoteEv ℚ)) (sampleRate totalDuration : ℚ) :
    Except Unit (List ℚ) :=
  renderInstrument master voice notes sampleRate totalDuration

/-- `renderLocalPianoSolo` (`src/services/audioUtils.ts:445-501`): the
two-operator FM graph per note is `voice`. -/
def renderLocalPianoSolo (master : ℚ → ℚ) (voice : NoteEv ℚ → ℕ → ℚ)
    (notes : List (NoteEv ℚ)) (sampleRate totalDuration : ℚ) :
    Except Unit (List ℚ) :=
  renderInstrument master voice notes sampleRate totalDuration

/-! ## Ambient randomness (`createSimpleReverb` / `createNoiseBuffer`,
`src/services/audioUtils.ts:505-529`) -/

/-- `createNoiseBuffer(ctx)`: `bufferSize = ctx.sampleRate * 2` samples of
`(Math.random() * 2 - 1) * 0.5`.  `rand i` is the value of the i-th ambient
`Math.random()` draw made by the call — the source seeds no generator, it
reads the global one, so the output is a function of this ambient stream. -/
def createNoiseBuffer (sampleRate : ℕ) (rand : ℕ → ℚ) : List ℚ :=
  (List.range (sampleRate * 2)).map fun i => (rand i * 2 - 1) * (1/2)

/-- The impulse of `createSimpleReverb(ctx, sampleRate, seconds)`: each of
the two channels is `(Math.random() * 2 - 1) * 0.01^(i/length)`, again read
from the ambient unseeded stream (`randL`/`randR` are the draws the loop
makes for the left/right sample at index `i`, in that interleaved order). -/
noncomputable def createSimpleReverbImpulse (sampleRate : ℕ) (seconds : ℚ)
    (randL randR : ℕ → ℚ) : List ℝ × List ℝ :=
  let length := (⌊(sampleRate : ℚ) * seconds⌋).toNat
  ((List.range length).map fun i =>
      ((randL i : ℝ) * 2 - 1) * (1/100 : ℝ) ^ ((i : ℝ) / (length : ℝ)),
   (List.range length).map fun i =>
      ((randR i : ℝ) * 2 - 1) * (1/100 : ℝ) ^ ((i : ℝ) / (length : ℝ)))

/-! ## MIDI encoder (`createMidiBlobFromNotes`, `src/services/audioUtils.ts:578-652`) -/

/-- `Math.round(n.start * ticksPerSecond)` with `ticksPerSecond = 960`
(120 BPM at 480 ticks per quarter). -/
def noteStartTick (n : NoteEv ℚ) : ℤ := round (n.start * 960)

/-- `Math.round((n.start + n.duration) * ticksPerSecond)`. -/
def noteEndTick (n : NoteEv ℚ) : ℤ := round ((n.start + n.duration) * 960)

/-- The 7-bit digits of `writeVLQ`'s do-while, least significant first.  The
source loop divides by 128 until the quotient is zero; the structural `fuel`
argument (instantiated with the value itself, which bounds the digit count)
only makes the recursion structural and is never exhausted. -/
def vlqDigitsAux : ℕ → ℕ → List ℕ
  | 0, v => [v % 128]
  | fuel + 1, v => v % 128 :: (if v / 128 = 0 then [] else vlqDigitsAux fuel (v / 128))

/-- The digit list collected by `writeVLQ` (at least one digit). -/
def vlqDigits (v : ℕ) : List ℕ := vlqDigitsAux v v

/-- `writeVLQ(value)`: all digits above the lowest, most significant first
and tagged with the continuation bit `0x80`, then the lowest digit plain. -/
def vlqBytes (value : ℕ) : List ℤ :=
  let buffer := vlqDigits value
  ((buffer.drop 1).reverse.map fun b => (b : ℤ) + 128) ++ [((buffer.headD 0 : ℕ) : ℤ)]

/-- The char codes of the default track label. -/
def virtuosoName : List ℤ :=
  [86, 105, 114, 116, 117, 111, 115, 111, 32, 73, 110, 115, 116, 114, 117,
   109, 101, 110, 116]

/-- One entry of the intermediate `midiEvents` array. -/
structure MidiEv where
  tick : ℤ
  isOn : Bool
  note : ℤ
  velocity : ℤ
deriving DecidableEq

/-- The note-on/note-off instants pushed per note, in source order:
velocity `Math.floor(Math.max(10, Math.min(127, velocity * 127)))` for the
on, `0` for the off. -/
def midiEventsOf (notes : List (NoteEv ℚ)) : List MidiEv :=
  notes.flatMap fun n =>
    [⟨noteStartTick n, true, n.note, ⌊max 10 (min 127 (n.velocity * 127))⌋⟩,
     ⟨noteEndTick n, false, n.note, 0⟩]

/-- Stable ascending insertion by tick: the model of
`midiEvents.sort((a, b) => a.tick - b.tick)` (ECMA-262 sort is stable). -/
def insertByTick (e : MidiEv) : List MidiEv → List MidiEv
  | [] => [e]
  | f :: rest => if f.tick ≤ e.tick then f :: insertByTick e rest else e :: f :: rest

/-- Fold-left insertion sort (stable, ascending by tick). -/
def sortByTick (l : List MidiEv) : List MidiEv :=
  l.foldl (fun acc e => insertByTick e acc) []

/-- The delta-encoded event stream: per event, `delta = Math.max(0, tick -
lastTick)` as a VLQ, then `0x90 note velocity` or `0x80 note 0`;
`lastTick` becomes the event's tick. -/
def deltaFold (l : List MidiEv) : List ℤ :=
  (l.foldl
    (fun (st : ℤ × List ℤ) e =>
      (e.tick,
        st.2 ++ vlqBytes (max 0 (e.tick - st.1)).toNat ++
          (if e.isOn then [0x90, e.note, e.velocity] else [0x80, e.note, 0])))
    (0, [])).2

/-- The `events` array of `createMidiBlobFromNotes`: tempo meta (500000 us =
bytes `07 A1 20`), track-name meta, the sorted delta stream, end-of-track. -/
def midiTrackEvents (notes : List (NoteEv ℚ)) (name : List ℤ) : List ℤ :=
  [0, 0xFF, 0x51, 0x03, 7, 161, 32] ++
  [0, 0xFF, 0x03, (name.length : ℤ)] ++ name ++
  deltaFold (sortByTick (midiEventsOf notes)) ++
  [0, 0xFF, 0x2F, 0]

/-- `createMidiBlobFromNotes(notes, instrumentName)` as the byte list of the
produced `Uint8Array` (whose construction reduces every entry mod 256):
`null` for an empty note list, else MThd header, MTrk header with the
big-endian event-stream length, and the events. -/
def createMidiBlobFromNotes (notes : List (NoteEv ℚ)) (name : List ℤ) :
    Option (List ℕ) :=
  match notes with
  | [] => none
  | _ =>
      let events := midiTrackEvents notes name
      let header : List ℤ :=
        [0x4D, 0x54, 0x68, 0x64, 0, 0, 0, 6, 0, 0, 0, 1,
         ((480 / 256 % 256 : ℕ) : ℤ), ((480 % 256 : ℕ) : ℤ)]
      let trackLen := events.length
      let trackHeader : List ℤ :=
        [0x4D, 0x54, 0x72, 0x6B,
         ((trackLen / 16777216 % 256 : ℕ) : ℤ), ((trackLen / 65536 % 256 : ℕ) : ℤ),
         ((trackLen / 256 % 256 : ℕ) : ℤ), ((trackLen % 256 : ℕ) : ℤ)]
      some ((header ++ trackHeader ++ events).map fun z => (z % 256).toNat)

/-- Proof-side name for the inner-loop step of `detectPitchAMDF` with a
finite current best `m`: accumulate `g i`, set the break flag when the
accumulator reaches `m`.  `diffSumEarly b tau (some m)` is definitionally a
fold of `breakStep (fun i => |b.getD i 0 - b.getD (i + tau) 0|) m`. -/
def breakStep (g : ℕ → ℚ) (m : ℚ) : ℚ × Bool → ℕ → ℚ × Bool := fun st i =>
  if st.2 then st else (st.1 + g i, decide (m ≤ st.1 + g i))

/-! ## Helper lemmas -/

/-- Justification for embedding the `Math.sqrt(x) < c` silence gates as the
squared comparison: for a positive threshold the two are equivalent. -/
theorem sq_gate_iff (x c : ℝ) (hc : 0 < c) : Real.sqrt x < c ↔ x < c ^ 2 :=
  Real.sqrt_lt' hc

/-- Once the break flag is set the loop state is frozen. -/
theorem breakFold_frozen (g : ℕ → ℚ) (m : ℚ) (L : List ℕ) (a : ℚ) :
    L.foldl (breakStep g m) (a, true) = (a, true) := by
  induction L with
  | nil => rfl
  | cons x xs ih => exact ih

/-- A break-style accumulation loop that never breaks computes the plain
sum (the `minVal = Infinity` case of the inner loop). -/
theorem breakFold_noflag (g : ℕ → ℚ) (L : List ℕ) : ∀ a : ℚ,
    (L.foldl (fun (st : ℚ × Bool) i => if st.2 then st else (st.1 + g i, false))
      (a, false)) = (a + (L.map g).sum, false) := by
  induction L with
  | nil => intro a; simp
  | cons x xs ih =>
      intro a
      have h := ih (a + g x)
      rw [add_assoc] at h
      simpa using h

/-- The break fold of nonnegative terms with flag test `m ≤ accumulator`:
either it never broke and computed the full sum, or it broke with a value
between `m` and the full sum. -/
theorem breakFold_run (g : ℕ → ℚ) (hg : ∀ i, 0 ≤ g i) (m : ℚ) (L : List ℕ) :
    ∀ a : ℚ,
    ((L.foldl (breakStep g m) (a, false)).2 = false ∧
      (L.foldl (breakStep g m) (a, false)).1 = a + (L.map g).sum) ∨
    ((L.foldl (breakStep g m) (a, false)).2 = true ∧
      m ≤ (L.foldl (breakStep g m) (a, false)).1 ∧
      (L.foldl (breakStep g m) (a, false)).1 ≤ a + (L.map g).sum) := by
  induction L with
  | nil => intro a; left; simp
  | cons x xs ih =>
      intro a
      have hsum : (0 : ℚ) ≤ (xs.map g).sum := by
        apply List.sum_nonneg
        intro q hq
        rcases List.mem_map.1 hq with ⟨i, _, rfl⟩
        exact hg i
      have hstep : breakStep g m (a, false) x
          = (a + g x, decide (m ≤ a + g x)) := rfl
      by_cases hbr : m ≤ a + g x
      · have key : (x :: xs).foldl (breakStep g m) (a, false) = (a + g x, true) := by
          rw [List.foldl_cons, hstep, decide_eq_true hbr]
          exact breakFold_frozen g m xs (a + g x)
        rw [key, List.map_cons, List.sum_cons]
        right
        refine ⟨rfl, hbr, ?_⟩
        show a + g x ≤ a + (g x + (xs.map g).sum)
        linarith
      · have key : (x :: xs).foldl (breakStep g m) (a, false)
            = xs.foldl (breakStep g m) (a + g x, false) := by
          rw [List.foldl_cons, hstep, decide_eq_false hbr]
        rw [key, List.map_cons, List.sum_cons]
        rcases ih (a + g x) with ⟨h2, h1⟩ | ⟨h2, h1, h3⟩
        · left
          exact ⟨h2, by rw [h1]; ring⟩
        · right
          refine ⟨h2, h1, ?_⟩
          rw [show a + (g x + (xs.map g).sum) = a + g x + (xs.map g).sum by ring]
          exact h3

/-- With no current best the inner loop of the detector computes the full
difference sum. -/
theorem diffSumEarly_none (b : List ℚ) (tau : ℕ) :
    diffSumEarly b tau none = diffSumFull b tau := by
  have h := breakFold_noflag (fun i => |b.getD i 0 - b.getD (i + tau) 0|)
    (evenIdx (numDiffTerms b.length tau)) 0
  rw [zero_add] at h
  show ((evenIdx (numDiffTerms b.length tau)).foldl
    (fun (st : ℚ × Bool) i => if st.2 then st
      else (st.1 + |b.getD i 0 - b.getD (i + tau) 0|, false)) (0, false)).1 = _
  rw [h]
  rfl

/-- The terms of the difference sum are nonnegative. -/
theorem diffTerm_nonneg (b : List ℚ) (tau : ℕ) :
    ∀ i, (0 : ℚ) ≤ |b.getD i 0 - b.getD (i + tau) 0| := fun _ => abs_nonneg _

/-- The early exit is transparent to the adoption test of the outer loop:
the early sum is below the current best exactly when the full sum is, and
in that case the two sums agree. -/
theorem diffSumEarly_some (b : List ℚ) (tau : ℕ) (m : ℚ) :
    (diffSumEarly b tau (some m) < m ↔ diffSumFull b tau < m) ∧
    (diffSumFull b tau < m → diffSumEarly b tau (some m) = diffSumFull b tau) := by
  have hearly : diffSumEarly b tau (some m)
      = ((evenIdx (numDiffTerms b.length tau)).foldl
          (breakStep (fun i => |b.getD i 0 - b.getD (i + tau) 0|) m)
          (0, false)).1 := rfl
  have hfull : diffSumFull b tau
      = 0 + ((evenIdx (numDiffTerms b.length tau)).map
          fun i => |b.getD i 0 - b.getD (i + tau) 0|).sum := by
    rw [zero_add]; rfl
  rcases breakFold_run (fun i => |b.getD i 0 - b.getD (i + tau) 0|)
      (diffTerm_nonneg b tau) m (evenIdx (numDiffTerms b.length tau)) 0 with
    ⟨_, h1⟩ | ⟨_, h1, h3⟩
  · rw [hearly, hfull, h1]
    exact ⟨Iff.rfl, fun _ => rfl⟩
  · rw [hearly, hfull]
    constructor
    · constructor
      · intro hlt; exact absurd hlt (not_lt.2 h1)
      · intro hlt; exact absurd hlt (not_lt.2 (le_trans h1 h3))
    · intro hlt; exact absurd hlt (not_lt.2 (le_trans h1 h3))

/-- The early-exit lag scan computes exactly the plain full-sum scan. -/
theorem amdfScan_eq (b : List ℚ) (taus : List ℕ) :
    amdfScan b taus = bestLagFull b taus := by
  unfold amdfScan bestLagFull
  apply List.foldl_ext
  intro st tau _
  match hst : st.1 with
  | none =>
      simp only [hst, diffSumEarly_none b tau]
  | some m =>
      simp only [hst]
      rcases diffSumEarly_some b tau m with ⟨hiff, heq⟩
      by_cases hlt : diffSumFull b tau < m
      · rw [if_pos (hiff.2 hlt), if_pos hlt, heq hlt]
      · rw [if_neg (fun hc => hlt (hiff.1 hc)), if_neg hlt]

/-! ## Claim C1 -/

attribute [local semireducible] Rat.add Rat.mul Rat.inv Rat.sub Rat.ofScientific

/-- C1 (amended): `detectPitchAMDF` applies no confidence gate relating the
best difference to the frame RMS.  It returns `0` exactly when the frame RMS
is below the absolute silence threshold `0.01` or the scan yields lag `0`;
otherwise it returns `sampleRate / bestLag` where `bestLag` is the first lag
of the candidate range minimising the full difference sum (the early-exit
optimisation never changes the chosen lag). -/
theorem detectPitchAMDF_no_confidence_gate (b : List ℚ) (sr : ℚ) :
    detectPitchAMDF b sr =
      if rmsSqOf b < 1/10000 then 0
      else
        if (bestLagFull b (pitchTaus sr)).2 = 0 then 0
        else sr / ((bestLagFull b (pitchTaus sr)).2 : ℚ) := by
  unfold detectPitchAMDF
  rw [amdfScan_eq]

set_option maxRecDepth 8000 in
/-- C1 (counterexample): on the concrete frame `noisyFrame` at sample rate
1200, the frame RMS is `√1 = 1` (so `80% · RMS = 4/5`), every candidate lag
has average sample difference above `4/5`, in particular the best (minimal)
one, yet the detector does not reject the frame as non-periodic: it returns
a nonzero frequency where the claim demands `0`. -/
theorem detectPitchAMDF_gate_counterexample :
    minAvgDiffAbove noisyFrame 1200 (4/5) ∧ rmsSqOf noisyFrame = 1 ∧
      detectPitchAMDF noisyFrame 1200 ≠ 0 := by
  decide

/-! ## Claims C2 and C10 -/

/-- C2 (counterexample): at sample `-1/4` — negative, so the claim demands
scaling by 32768, giving `-8192` — the encoder scales by 32767 (the source
condition `0.5 + sample < 0` tests `sample < -0.5`, not `sample < 0`) and
truncation yields `-8191`. -/
theorem wavSample_counterexample :
    wavSample (-(1/4)) = -8191 ∧ specScaledSample (-(1/4)) = -8192 := by
  decide

/-- C2 (amended): each sample is clamped to `[-1, 1]` and then scaled
asymmetrically with the threshold at `-0.5`: samples below `-0.5` are
multiplied by 32768, samples at or above `-0.5` by 32767, truncated toward
zero; the concrete 2-sample mono buffer `[1.0, -1.0]` at 8000 Hz encodes to
a header declaring data-chunk length 4 followed by the 16-bit samples
`32767` and `-32768` (interleaving is per frame; with one channel each frame
is one sample). -/
theorem wavSample_scaling_amended :
    (∀ x : ℚ, wavSample x =
      ratTrunc (if wavClamp x < -(1/2) then wavClamp x * 32768
                else wavClamp x * 32767)) ∧
    audioBufferToWav ⟨8000, 2, [[1, -1]]⟩ =
      [82, 73, 70, 70, 40, 0, 0, 0, 87, 65, 86, 69,
       102, 109, 116, 32, 16, 0, 0, 0, 1, 0, 1, 0,
       64, 31, 0, 0, 128, 62, 0, 0, 2, 0, 16, 0,
       100, 97, 116, 97, 4, 0, 0, 0,
       255, 127, 0, 128] := by
  constructor
  · intro x
    show ratTrunc (if 1/2 + wavClamp x < 0 then wavClamp x * 32768
        else wavClamp x * 32767) = _
    congr 1
    apply if_congr _ rfl rfl
    constructor <;> intro h <;> linarith
  · decide

/-- Length of a flat map whose pieces all have the same length. -/
theorem length_flatMap_const {α β : Type} (l : List α) (f : α → List β) (k : ℕ)
    (h : ∀ a ∈ l, (f a).length = k) : (l.flatMap f).length = l.length * k := by
  induction l with
  | nil => simp
  | cons x xs ih =>
      rw [List.flatMap_cons, List.length_append, List.length_cons,
        ih fun a ha => h a (List.mem_cons_of_mem _ ha),
        h x (List.mem_cons_self x xs)]
      ring

/-- The interleaved data section holds `2 * channels` bytes per frame. -/
theorem wavData_length (buf : AudioBuf) :
    ((List.range buf.numFrames).flatMap fun pos =>
      (List.range buf.channels.length).flatMap fun i =>
        int16le (wavSample ((buf.channels.getD i []).getD pos 0))).length
      = buf.numFrames * (buf.channels.length * 2) := by
  have hinner : ∀ pos ∈ List.range buf.numFrames,
      ((List.range buf.channels.length).flatMap fun i =>
        int16le (wavSample ((buf.channels.getD i []).getD pos 0))).length
        = buf.channels.length * 2 := by
    intro pos _
    have h2 : ∀ i ∈ List.range buf.channels.length,
        (int16le (wavSample ((buf.channels.getD i []).getD pos 0))).length = 2 :=
      fun i _ => rfl
    rw [length_flatMap_const _ _ 2 h2, List.length_range]
  rw [length_flatMap_const _ _ (buf.channels.length * 2) hinner, List.length_range]

/-- The encoder output decomposed: 44 explicit header bytes followed by the
data section (definitional unfolding of `audioBufferToWav`). -/
theorem audioBufferToWav_decomp (buf : AudioBuf) :
    audioBufferToWav buf =
      82 ::
      73 ::
      70 ::
      70 ::
      (((buf.numFrames * buf.channels.length * 2 + 44) - 8) % 256) ::
      (((buf.numFrames * buf.channels.length * 2 + 44) - 8) / 256 % 256) ::
      (((buf.numFrames * buf.channels.length * 2 + 44) - 8) / 65536 % 256) ::
      (((buf.numFrames * buf.channels.length * 2 + 44) - 8) / 16777216 % 256) ::
      87 ::
      65 ::
      86 ::
      69 ::
      102 ::
      109 ::
      116 ::
      32 ::
      16 ::
      0 ::
      0 ::
      0 ::
      1 ::
      0 ::
      (buf.channels.length % 256) ::
      (buf.channels.length / 256 % 256) ::
      (buf.sampleRate % 256) ::
      (buf.sampleRate / 256 % 256) ::
      (buf.sampleRate / 65536 % 256) ::
      (buf.sampleRate / 16777216 % 256) ::
      ((buf.sampleRate * 2 * buf.channels.length) % 256) ::
      ((buf.sampleRate * 2 * buf.channels.length) / 256 % 256) ::
      ((buf.sampleRate * 2 * buf.channels.length) / 65536 % 256) ::
      ((buf.sampleRate * 2 * buf.channels.length) / 16777216 % 256) ::
      ((buf.channels.length * 2) % 256) ::
      ((buf.channels.length * 2) / 256 % 256) ::
      16 ::
      0 ::
      100 ::
      97 ::
      116 ::
      97 ::
      (((buf.numFrames * buf.channels.length * 2 + 44) - 44) % 256) ::
      (((buf.numFrames * buf.channels.length * 2 + 44) - 44) / 256 % 256) ::
      (((buf.numFrames * buf.channels.length * 2 + 44) - 44) / 65536 % 256) ::
      (((buf.numFrames * buf.channels.length * 2 + 44) - 44) / 16777216 % 256) ::
      ((List.range buf.numFrames).flatMap fun pos =>
        (List.range buf.channels.length).flatMap fun i =>
          int16le (wavSample ((buf.channels.getD i []).getD pos 0))) := rfl

/-- C10: for every input buffer with `C` channels and `N` frames (with the
total below the 32-bit limit of the header fields), the encoder output is
exactly `44 + 2*C*N` bytes, the RIFF length field (bytes 4..7, little
endian) declares the total byte length minus 8, and the data sub-chunk
length field (bytes 40..43) declares `2*C*N`. -/
theorem audioBufferToWav_header_consistent (buf : AudioBuf)
    (h : 44 + 2 * buf.channels.length * buf.numFrames < 4294967296) :
    (audioBufferToWav buf).length
        = 44 + 2 * buf.channels.length * buf.numFrames ∧
    u32dec ((audioBufferToWav buf).drop 4)
        = (44 + 2 * buf.channels.length * buf.numFrames) - 8 ∧
    u32dec ((audioBufferToWav buf).drop 40)
        = 2 * buf.channels.length * buf.numFrames := by
  refine ⟨?_, ?_, ?_⟩
  · rw [audioBufferToWav_decomp]
    simp only [List.length_cons, wavData_length]
    ring
  · rw [audioBufferToWav_decomp]
    show (buf.numFrames * buf.channels.length * 2 + 44 - 8) % 256 +
        256 * ((buf.numFrames * buf.channels.length * 2 + 44 - 8) / 256 % 256) +
        65536 * ((buf.numFrames * buf.channels.length * 2 + 44 - 8) / 65536 % 256) +
        16777216 * ((buf.numFrames * buf.channels.length * 2 + 44 - 8) / 16777216 % 256)
        = 44 + 2 * buf.channels.length * buf.numFrames - 8
    have h2 : 2 * buf.channels.length * buf.numFrames
        = buf.numFrames * buf.channels.length * 2 := by ring
    rw [h2] at h ⊢
    omega
  · rw [audioBufferToWav_decomp]
    show (buf.numFrames * buf.channels.length * 2 + 44 - 44) % 256 +
        256 * ((buf.numFrames * buf.channels.length * 2 + 44 - 44) / 256 % 256) +
        65536 * ((buf.numFrames * buf.channels.length * 2 + 44 - 44) / 65536 % 256) +
        16777216 * ((buf.numFrames * buf.channels.length * 2 + 44 - 44) / 16777216 % 256)
        = 2 * buf.channels.length * buf.numFrames
    have h2 : 2 * buf.channels.length * buf.numFrames
        = buf.numFrames * buf.channels.length * 2 := by ring
    rw [h2] at h ⊢
    omega

/-- C10 (witness): the header consistency at the concrete 2-sample mono
buffer of the spec scenario. -/
theorem audioBufferToWav_header_consistent_witness :
    44 + 2 * (AudioBuf.mk 8000 2 [[1, -1]]).channels.length
        * (AudioBuf.mk 8000 2 [[1, -1]]).numFrames < 4294967296 ∧
    ((audioBufferToWav ⟨8000, 2, [[1, -1]]⟩).length = 48 ∧
      u32dec ((audioBufferToWav ⟨8000, 2, [[1, -1]]⟩).drop 4) = 40 ∧
      u32dec ((audioBufferToWav ⟨8000, 2, [[1, -1]]⟩).drop 40) = 4) :=
  ⟨by decide, audioBufferToWav_header_consistent ⟨8000, 2, [[1, -1]]⟩ (by decide)⟩

/-! ## Claim C3 -/

/-- C3: the noise buffer is not a function of the declared render inputs.
`createNoiseBuffer` reads the ambient unseeded `Math.random()` stream, so
two calls with the identical declared input (`sampleRate = 1`) but
different ambient stream states produce different buffers
(`[-1/2, -1/2]` versus `[1/4, 1/4]`): repeated renders are not bit-for-bit
reproducible, and no per-render deterministic seeding exists in the source. -/
theorem createNoiseBuffer_ambient_dependence :
    createNoiseBuffer 1 (fun _ => 0) = [-(1/2), -(1/2)] ∧
    createNoiseBuffer 1 (fun _ => 3/4) = [1/4, 1/4] ∧
    ([-(1/2), -(1/2)] : List ℚ) ≠ [1/4, 1/4] := by
  refine ⟨by decide, by decide, by decide⟩

/-! ## Claims C4 and C7 -/

/-- With a positive sample rate the context length is positive: the floored
duration `max 1 (totalDuration + 2)` is at least one second. -/
theorem offlineLength_pos (sr d : ℚ) (hsr : 0 < sr) : 0 < offlineLength sr d := by
  unfold offlineLength
  have h1 : (0 : ℚ) < max 1 (d + 2) * sr :=
    mul_pos (lt_of_lt_of_le one_pos (le_max_left 1 (d + 2))) hsr
  have h2 : (0 : ℤ) < ⌈max 1 (d + 2) * sr⌉ := by
    rw [Int.lt_ceil]
    exact_mod_cast h1
  omega

/-- The shared behaviour of the three renderers on an empty note list:
success with a full-length all-zero buffer exactly for positive sample
rates, the error exactly for non-positive ones — the duration never
matters because of the `max(1, totalDuration + 2)` floor. -/
theorem renderInstrument_empty (master : ℚ → ℚ) (voice : NoteEv ℚ → ℕ → ℚ)
    (sr d : ℚ) (hm : master 0 = 0) :
    (0 < sr → renderInstrument master voice [] sr d
        = .ok (List.replicate (offlineLength sr d) 0)) ∧
    (sr ≤ 0 → renderInstrument master voice [] sr d = .error ()) := by
  constructor
  · intro hsr
    unfold renderInstrument createOfflineContext
    rw [if_neg]
    · show Except.ok ((List.range (offlineLength sr d)).map fun _ => master ((([] : List (NoteEv ℚ)).map fun ev => voice ev _).sum)) = _
      simp [hm]
    · push_neg
      exact ⟨hsr, Nat.pos_iff_ne_zero.1 (offlineLength_pos sr d hsr)⟩
  · intro hsr
    unfold renderInstrument createOfflineContext
    rw [if_pos (Or.inl hsr)]

/-- C4 (counterexample): a render with an empty note list, a valid sample
rate of 8000 Hz and the non-positive duration `-3` s does not propagate an
error — the claim demands one — but succeeds with an 8000-sample silent
buffer (the `max(1, totalDuration + 2)` floor absorbs the duration). -/
theorem render_negative_duration_counterexample :
    renderLocalSaxophoneSolo (fun q => q) (fun _ _ => 0) [] 8000 (-3)
      = .ok (List.replicate 8000 0) ∧ (-3 : ℚ) ≤ 0 := by
  constructor
  · have h := (renderInstrument_empty (fun q => q) (fun _ _ => 0) 8000 (-3) rfl).1
      (by norm_num)
    have hlen : offlineLength 8000 (-3) = 8000 := by
      unfold offlineLength
      norm_num
      decide
    rw [hlen] at h
    exact h
  · norm_num

/-- C4 (amended): every synthesizer render called with an empty note list
returns a full-length all-silent buffer whenever the sample rate is valid
(positive); it propagates an error exactly when the sample rate is
non-positive — a non-positive duration alone never causes an error, since
the render duration is floored at `max(1, totalDuration + 2)` seconds. -/
theorem render_empty_notes_amended (master : ℚ → ℚ) (voice : NoteEv ℚ → ℕ → ℚ)
    (sr d : ℚ) (hm : master 0 = 0) :
    (0 < sr →
      renderLocalSaxophoneSolo master voice [] sr d
          = .ok (List.replicate (offlineLength sr d) 0) ∧
      renderLocalViolinSolo master voice [] sr d
          = .ok (List.replicate (offlineLength sr d) 0) ∧
      renderLocalPianoSolo master voice [] sr d
          = .ok (List.replicate (offlineLength sr d) 0)) ∧
    (sr ≤ 0 →
      renderLocalSaxophoneSolo master voice [] sr d = .error () ∧
      renderLocalViolinSolo master voice [] sr d = .error () ∧
      renderLocalPianoSolo master voice [] sr d = .error ()) := by
  rcases renderInstrument_empty master voice sr d hm with ⟨hok, herr⟩
  exact ⟨fun hsr => ⟨hok hsr, hok hsr, hok hsr⟩,
    fun hsr => ⟨herr hsr, herr hsr, herr hsr⟩⟩

/-- C4 (witness): the amended statement instantiated at the identity master
stage, the zero voice, sample rate 5 and duration 0. -/
theorem render_empty_notes_amended_witness :
    (fun q : ℚ => q) 0 = 0 ∧
    ((0 < (5 : ℚ) →
      renderLocalSaxophoneSolo (fun q => q) (fun _ _ => 0) [] 5 0
          = .ok (List.replicate (offlineLength 5 0) 0) ∧
      renderLocalViolinSolo (fun q => q) (fun _ _ => 0) [] 5 0
          = .ok (List.replicate (offlineLength 5 0) 0) ∧
      renderLocalPianoSolo (fun q => q) (fun _ _ => 0) [] 5 0
          = .ok (List.replicate (offlineLength 5 0) 0)) ∧
    ((5 : ℚ) ≤ 0 →
      renderLocalSaxophoneSolo (fun q => q) (fun _ _ => 0) [] 5 0 = .error () ∧
      renderLocalViolinSolo (fun q => q) (fun _ _ => 0) [] 5 0 = .error () ∧
      renderLocalPianoSolo (fun q => q) (fun _ _ => 0) [] 5 0 = .error ())) :=
  ⟨rfl, render_empty_notes_amended (fun q => q) (fun _ _ => 0) 5 0 rfl⟩

/-- C7: for every positive sample rate, non-negative duration and note
list, each of the three renderers succeeds and returns the same buffer,
whose length is `ceil((totalDuration + 2) * sampleRate)` — tail margin
fixed at 2 s — and hence at least `ceil(totalDuration * sampleRate)`. -/
theorem render_length (master : ℚ → ℚ) (voice : NoteEv ℚ → ℕ → ℚ)
    (notes : List (NoteEv ℚ)) (sr d : ℚ) (hsr : 0 < sr) (hd : 0 ≤ d) :
    ∃ buf : List ℚ,
      renderLocalSaxophoneSolo master voice notes sr d = .ok buf ∧
      renderLocalViolinSolo master voice notes sr d = .ok buf ∧
      renderLocalPianoSolo master voice notes sr d = .ok buf ∧
      buf.length = (⌈(d + 2) * sr⌉).toNat ∧
      (⌈d * sr⌉).toNat ≤ buf.length := by
  have hmax : max 1 (d + 2) = d + 2 := max_eq_right (by linarith)
  have hrun : renderInstrument master voice notes sr d
      = .ok ((List.range (offlineLength sr d)).map fun n =>
          master ((notes.map fun ev => voice ev n).sum)) := by
    unfold renderInstrument createOfflineContext
    rw [if_neg]
    push_neg
    exact ⟨hsr, Nat.pos_iff_ne_zero.1 (offlineLength_pos sr d hsr)⟩
  refine ⟨_, hrun, hrun, hrun, ?_, ?_⟩
  · rw [List.length_map, List.length_range]
    unfold offlineLength
    rw [hmax]
  · rw [List.length_map, List.length_range]
    unfold offlineLength
    rw [hmax]
    have hle : ⌈d * sr⌉ ≤ ⌈(d + 2) * sr⌉ :=
      Int.ceil_le_ceil (mul_le_mul_of_nonneg_right (by linarith) hsr.le)
    exact Int.toNat_le_toNat hle

/-- C7 (witness): the length law at sample rate 5 and duration 1: the
buffer has `ceil(3 * 5) = 15` samples, at least `ceil(1 * 5) = 5`. -/
theorem render_length_witness :
    (0 : ℚ) < 5 ∧ (0 : ℚ) ≤ 1 ∧
    ∃ buf : List ℚ,
      renderLocalSaxophoneSolo (fun q => q) (fun _ _ => 0) [] 5 1 = .ok buf ∧
      renderLocalViolinSolo (fun q => q) (fun _ _ => 0) [] 5 1 = .ok buf ∧
      renderLocalPianoSolo (fun q => q) (fun _ _ => 0) [] 5 1 = .ok buf ∧
      buf.length = (⌈((1 : ℚ) + 2) * 5⌉).toNat ∧
      (⌈(1 : ℚ) * 5⌉).toNat ≤ buf.length :=
  ⟨by norm_num, by norm_num,
    render_length (fun q => q) (fun _ _ => 0) [] 5 1 (by norm_num) (by norm_num)⟩

/-! ## Claims C5, C8, C9 — segmentation and extraction -/

/-- For every frequency the pipeline accepts (`75 < freq < 1200`), the
rounded semitone `Math.round(69 + 12 * log2(freq / 440))` lies in `[36, 96]`
(in fact in `[39, 87]`; the claim range follows). -/
theorem midiRound_bounds (q : ℚ) (h75 : 75 < q) (h1200 : q < 1200) :
    36 ≤ round ((69 : ℝ) + 12 * Real.logb 2 ((q : ℝ) / 440)) ∧
    round ((69 : ℝ) + 12 * Real.logb 2 ((q : ℝ) / 440)) ≤ 96 := by
  have hq75 : (75 : ℝ) < (q : ℝ) := by exact_mod_cast h75
  have hq1200 : (q : ℝ) < 1200 := by exact_mod_cast h1200
  have hx0 : (0 : ℝ) < (q : ℝ) / 440 := by
    have : (0 : ℝ) < (q : ℝ) := by linarith
    positivity
  have hb : (1 : ℝ) < 2 := by norm_num
  have hup : Real.logb 2 ((q : ℝ) / 440) < 55 / 24 := by
    rw [Real.logb_lt_iff_lt_rpow hb hx0]
    by_contra hc
    push_neg at hc
    have hpow : ((2 : ℝ) ^ ((55 : ℝ) / 24)) ^ (24 : ℕ) ≤ ((q : ℝ) / 440) ^ (24 : ℕ) :=
      pow_le_pow_left₀ (by positivity) hc 24
    have hval : ((2 : ℝ) ^ ((55 : ℝ) / 24)) ^ (24 : ℕ) = (2 : ℝ) ^ (55 : ℕ) := by
      rw [← Real.rpow_natCast ((2 : ℝ) ^ ((55 : ℝ) / 24)) 24,
        ← Real.rpow_mul (by norm_num : (0 : ℝ) ≤ 2)]
      norm_num
    have hlt : ((q : ℝ) / 440) ^ (24 : ℕ) < ((1200 : ℝ) / 440) ^ (24 : ℕ) := by
      apply pow_lt_pow_left₀ _ (by positivity) (by norm_num)
      linarith
    rw [hval] at hpow
    have : ((1200 : ℝ) / 440) ^ (24 : ℕ) < (2 : ℝ) ^ (55 : ℕ) := by norm_num
    linarith
  have hdown : (-(67 / 24) : ℝ) ≤ Real.logb 2 ((q : ℝ) / 440) := by
    rw [Real.le_logb_iff_rpow_le hb hx0]
    have h2 : (2 : ℝ) ^ ((-(67 / 24)) : ℝ) ≤ 75 / 440 := by
      by_contra hc
      push_neg at hc
      have hpow : ((75 : ℝ) / 440) ^ (24 : ℕ) < ((2 : ℝ) ^ ((-(67 / 24)) : ℝ)) ^ (24 : ℕ) :=
        pow_lt_pow_left₀ hc (by positivity) (by norm_num)
      have hval : ((2 : ℝ) ^ ((-(67 / 24)) : ℝ)) ^ (24 : ℕ) = ((2 : ℝ) ^ (67 : ℕ))⁻¹ := by
        rw [← Real.rpow_natCast ((2 : ℝ) ^ ((-(67 / 24)) : ℝ)) 24,
          ← Real.rpow_mul (by norm_num : (0 : ℝ) ≤ 2)]
        norm_num
      rw [hval] at hpow
      have hge : ((2 : ℝ) ^ (67 : ℕ))⁻¹ ≤ ((75 : ℝ) / 440) ^ (24 : ℕ) := by
        rw [inv_le_iff_one_le_mul₀ (by positivity)]
        norm_num
      linarith
    calc (2 : ℝ) ^ ((-(67 / 24)) : ℝ) ≤ 75 / 440 := h2
      _ ≤ (q : ℝ) / 440 := by linarith
  constructor
  · rw [round_eq, Int.le_floor]
    push_cast
    linarith
  · rw [round_eq]
    have hlt97 : (69 : ℝ) + 12 * Real.logb 2 ((q : ℝ) / 440) + 1 / 2 < 97 := by linarith
    have hfl : ⌊(69 : ℝ) + 12 * Real.logb 2 ((q : ℝ) / 440) + 1 / 2⌋ < 97 := by
      apply Int.floor_lt.2
      push_cast
      linarith
    omega

/-- A filter map of a single element is the image's option list. -/
theorem filterMap_singleton {α β : Type} (f : α → Option β) (a : α) :
    [a].filterMap f = (f a).toList := by
  cases h : f a <;> simp [List.filterMap_cons, h]

/-- A filter map of a cons splits into the head's option list and the
tail's filter map. -/
theorem filterMap_cons_toList {α β : Type} (f : α → Option β) (a : α)
    (l : List α) : (a :: l).filterMap f = (f a).toList ++ l.filterMap f := by
  cases h : f a <;> simp [List.filterMap_cons, h]

/-- Closing a run emits exactly what the spec-side per-run rule emits. -/
theorem addNote_eq {α : Type} [LinearOrderedField α] (ts rms : List α) (fd : α)
    (notes : List (NoteEv α)) (cur : ℤ) (s e : ℕ) :
    (if 0 < cur then addNote ts rms fd notes cur s e else notes)
      = notes ++ (runToEvent ts rms fd (cur, s, e)).toList := by
  by_cases hcur : 0 < cur
  · rw [if_pos hcur]
    unfold addNote runToEvent
    by_cases hdur : 3/50 < ((e : α) - (s : α)) * fd
    · rw [if_pos hdur, if_pos ⟨hcur, hdur⟩]
      rfl
    · rw [if_neg hdur, if_neg (fun hc => hdur hc.2)]
      simp
  · rw [if_neg hcur]
    unfold runToEvent
    rw [if_neg (fun hc => hcur hc.1)]
    simp

/-- The segmentation loop, from any state, appends exactly the per-run
images of the remaining runs. -/
theorem segLoop_eq {α : Type} [LinearOrderedField α] (ts rms : List α)
    (fd : α) : ∀ (l : List ℤ) (i : ℕ) (cur : ℤ) (s : ℕ)
    (notes : List (NoteEv α)),
    segLoop ts rms fd l i cur s notes
      = notes ++ (runsAux l i cur s).filterMap (runToEvent ts rms fd) := by
  intro l
  induction l with
  | nil =>
      intro i cur s notes
      show (if 0 < cur then addNote ts rms fd notes cur s i else notes) = _
      rw [addNote_eq, runsAux, filterMap_singleton]
  | cons v rest ih =>
      intro i cur s notes
      show (if v ≠ cur then _ else _) = _
      by_cases hv : v = cur
      · rw [if_neg (fun hne => hne hv), runsAux, if_pos hv]
        exact ih (i + 1) cur s notes
      · rw [if_pos hv, runsAux, if_neg hv, ih (i + 1) v i _, addNote_eq,
          filterMap_cons_toList, List.append_assoc]

/-- C5: segmentation equals the spec-side rule: every maximal run of the
smoothed sequence (the run open at the end closed at the sequence length,
by `runsAux`'s base case) becomes a Note Event exactly when its value is a
pitch and its duration strictly exceeds 60 ms = 3/50 s, with the
`addNote` fields; in particular (second and third conjuncts, at 1 ms per
frame) a run of exactly 60 frames = 60 ms is excluded and one of
61 frames = 61 ms is included. -/
theorem segmentNotes_min_duration :
    (∀ (ts rms : List ℝ) (fd : ℝ) (l : List ℤ),
      segmentNotes ts rms fd l = (runsOf l).filterMap (runToEvent ts rms fd)) ∧
    segmentNotes ([] : List ℚ) [] (1/1000) (List.replicate 60 5) = [] ∧
    segmentNotes ([] : List ℚ) [] (1/1000) (List.replicate 61 5)
      = [⟨5, 0, 61/1000, 3/10⟩] := by
  refine ⟨fun ts rms fd l => ?_, by decide, by decide⟩
  show segLoop ts rms fd l 0 0 0 [] = _
  rw [segLoop_eq, List.nil_append]
  rfl

/-- Every run's value is the seeded current value or occurs in the
sequence. -/
theorem runsAux_val : ∀ (l : List ℤ) (i : ℕ) (cur : ℤ) (s : ℕ),
    ∀ r ∈ runsAux l i cur s, r.1 = cur ∨ r.1 ∈ l := by
  intro l
  induction l with
  | nil =>
      intro i cur s r hr
      rw [runsAux, List.mem_singleton] at hr
      left
      rw [hr]
  | cons v rest ih =>
      intro i cur s r hr
      rw [runsAux] at hr
      by_cases hv : v = cur
      · rw [if_pos hv] at hr
        rcases ih (i + 1) cur s r hr with h | h
        · left; exact h
        · right; exact List.mem_cons_of_mem v h
      · rw [if_neg hv] at hr
        rcases List.mem_cons.1 hr with h | h
        · left; rw [h]
        · rcases ih (i + 1) v i r h with h2 | h2
          · right; rw [h2]; exact List.mem_cons_self v rest
          · right; exact List.mem_cons_of_mem v h2

/-- Every run's start index is at least the seeded start. -/
theorem runsAux_start_ge : ∀ (l : List ℤ) (i : ℕ) (cur : ℤ) (s : ℕ),
    s ≤ i → ∀ r ∈ runsAux l i cur s, s ≤ r.2.1 := by
  intro l
  induction l with
  | nil =>
      intro i cur s _ r hr
      rw [runsAux, List.mem_singleton] at hr
      rw [hr]
  | cons v rest ih =>
      intro i cur s hsi r hr
      rw [runsAux] at hr
      by_cases hv : v = cur
      · rw [if_pos hv] at hr
        exact ih (i + 1) cur s (le_trans hsi (Nat.le_succ i)) r hr
      · rw [if_neg hv] at hr
        rcases List.mem_cons.1 hr with h | h
        · rw [h]
        · exact le_trans hsi (ih (i + 1) v i (Nat.le_succ i) r h)

/-- Every run's end index is at most the seeded position plus the length of
the remaining sequence. -/
theorem runsAux_end_le : ∀ (l : List ℤ) (i : ℕ) (cur : ℤ) (s : ℕ),
    ∀ r ∈ runsAux l i cur s, r.2.2 ≤ i + l.length := by
  intro l
  induction l with
  | nil =>
      intro i cur s r hr
      rw [runsAux, List.mem_singleton] at hr
      rw [hr]
      simp
  | cons v rest ih =>
      intro i cur s r hr
      rw [runsAux] at hr
      by_cases hv : v = cur
      · rw [if_pos hv] at hr
        have h3 := ih (i + 1) cur s r hr
        simp only [List.length_cons]
        omega
      · rw [if_neg hv] at hr
        rcases List.mem_cons.1 hr with h | h
        · rw [h]
          simp only [List.length_cons]
          omega
        · have h3 := ih (i + 1) v i r h
          simp only [List.length_cons]
          omega

/-- Run start indices are nondecreasing along the run list. -/
theorem runsAux_pairwise_start : ∀ (l : List ℤ) (i : ℕ) (cur : ℤ) (s : ℕ),
    s ≤ i → (runsAux l i cur s).Pairwise (fun a b => a.2.1 ≤ b.2.1) := by
  intro l
  induction l with
  | nil =>
      intro i cur s _
      rw [runsAux]
      exact List.pairwise_singleton _ _
  | cons v rest ih =>
      intro i cur s hsi
      rw [runsAux]
      by_cases hv : v = cur
      · rw [if_pos hv]
        exact ih (i + 1) cur s (le_trans hsi (Nat.le_succ i))
      · rw [if_neg hv]
        refine List.Pairwise.cons ?_ (ih (i + 1) v i (Nat.le_succ i))
        intro r hr
        exact le_trans hsi (runsAux_start_ge rest (i + 1) v i (Nat.le_succ i) r hr)

/-- Every value of the median window occurs in the data. -/
theorem medianWindow_subset (data : List ℤ) (half i : ℕ) :
    ∀ x ∈ medianWindow data half i, x ∈ data := by
  intro x hx
  unfold medianWindow at hx
  rcases List.mem_filterMap.1 hx with ⟨j, _, hfx⟩
  by_cases hcond : 0 ≤ (i : ℤ) + (j : ℤ) - (half : ℤ) ∧
      (i : ℤ) + (j : ℤ) - (half : ℤ) < (data.length : ℤ)
  · rw [if_pos hcond, Option.some_inj] at hfx
    have hlt : ((i : ℤ) + (j : ℤ) - (half : ℤ)).toNat < data.length := by omega
    rw [← hfx, List.getD_eq_getElem data 0 hlt]
    exact List.getElem_mem hlt
  · rw [if_neg hcond] at hfx
    exact absurd hfx (Option.noConfusion)

/-- The median window around an in-range index is nonempty: it contains the
sample at the index itself (`j = half`). -/
theorem medianWindow_self_mem (data : List ℤ) (half i : ℕ)
    (h : i < data.length) : data.getD i 0 ∈ medianWindow data half i := by
  unfold medianWindow
  rw [List.mem_filterMap]
  have hmemr : half ∈ List.range (2 * half + 1) := List.mem_range.2 (by omega)
  refine ⟨half, hmemr, ?_⟩
  have hidx : (i : ℤ) + (half : ℤ) - (half : ℤ) = (i : ℤ) := by ring
  rw [hidx, if_pos ⟨Int.natCast_nonneg i, by exact_mod_cast h⟩,
    Option.some_inj, Int.toNat_ofNat]

/-- Median smoothing only selects values already present in the per-frame
sequence. -/
theorem medianFilter_mem (data : List ℤ) (w : ℕ) :
    ∀ x ∈ medianFilter data w, x ∈ data := by
  intro x hx
  unfold medianFilter at hx
  rcases List.mem_map.1 hx with ⟨i, hi, hxeq⟩
  have hiLen : i < data.length := List.mem_range.1 hi
  have hne : medianWindow data (w / 2) i ≠ [] :=
    List.ne_nil_of_mem (medianWindow_self_mem data (w / 2) i hiLen)
  have hlen : 0 < ((medianWindow data (w / 2) i).insertionSort (· ≤ ·)).length := by
    rw [List.length_insertionSort]
    exact List.length_pos.2 hne
  have hdivlt :
      ((medianWindow data (w / 2) i).insertionSort (· ≤ ·)).length / 2
        < ((medianWindow data (w / 2) i).insertionSort (· ≤ ·)).length :=
    Nat.div_lt_self hlen (by norm_num)
  rw [← hxeq, List.getD_eq_getElem _ 0 hdivlt]
  have hmem := List.getElem_mem hdivlt
  rw [List.mem_insertionSort] at hmem
  exact medianWindow_subset data (w / 2) i _ hmem

/-- Segmentation equals the per-run rule (helper form, any ordered field
carrier). -/
theorem segmentNotes_eq_runs {α : Type} [LinearOrderedField α]
    (ts rms : List α) (fd : α) (l : List ℤ) :
    segmentNotes ts rms fd l = (runsOf l).filterMap (runToEvent ts rms fd) := by
  show segLoop ts rms fd l 0 0 0 [] = _
  rw [segLoop_eq, List.nil_append]
  rfl

/-- Inversion of the per-run rule: an emitted event comes from a positive
run value with duration above 60 ms and carries the run's note and the
timestamp at the run start. -/
theorem runToEvent_some {α : Type} [LinearOrderedField α] {ts rms : List α}
    {fd : α} {r : ℤ × ℕ × ℕ} {ev : NoteEv α}
    (h : runToEvent ts rms fd r = some ev) :
    0 < r.1 ∧ 3/50 < ((r.2.2 : α) - (r.2.1 : α)) * fd ∧
      ev.note = r.1 ∧ ev.start = ts.getD r.2.1 0 := by
  unfold runToEvent at h
  by_cases hc : 0 < r.1 ∧ 3/50 < ((r.2.2 : α) - (r.2.1 : α)) * fd
  · rw [if_pos hc, Option.some_inj] at h
    exact ⟨hc.1, hc.2, by rw [← h], by rw [← h]⟩
  · rw [if_neg hc] at h
    exact absurd h Option.noConfusion

/-- A kept run is nonempty: its start index is strictly below its end
index whenever the frame duration is positive. -/
theorem runToEvent_start_lt_end {α : Type} [LinearOrderedField α]
    {ts rms : List α} {fd : α} {r : ℤ × ℕ × ℕ} {ev : NoteEv α}
    (h : runToEvent ts rms fd r = some ev) (hfd : 0 < fd) :
    r.2.1 < r.2.2 := by
  have hdur := (runToEvent_some h).2.1
  have hcast : ((r.2.1 : α)) < (r.2.2 : α) := by nlinarith
  exact_mod_cast hcast

/-- The median filter preserves the sequence length. -/
theorem medianFilter_length (data : List ℤ) (w : ℕ) :
    (medianFilter data w).length = data.length := by
  simp [medianFilter]

/-- Reading the frame time list: entry `k` is `(256 * k) / sampleRate`. -/
theorem timeSteps_getD (m k : ℕ) (sr : ℝ) (hk : k < m) :
    ((List.range' 0 m 256).map (fun (i : ℕ) => (i : ℝ) / sr)).getD k 0
      = ((256 * k : ℕ) : ℝ) / sr := by
  have hk2 : k < ((List.range' 0 m 256).map (fun (i : ℕ) => (i : ℝ) / sr)).length := by
    simpa using hk
  rw [List.getD_eq_getElem _ _ hk2, List.getElem_map, List.getElem_range']
  push_cast
  ring_nf

/-- C9: every Note Event produced by note extraction has its note number in
the range `[36, 96]`: the detected frequency is gated to `(75, 1200)` Hz
before the semitone conversion, whose rounded value then lies in the range,
and median smoothing only selects values already present per frame. -/
theorem extractNotes_note_range (data rawData : List ℚ) (sr : ℚ) :
    (extractNotesCore data rawData sr).Forall
      fun ev => 36 ≤ ev.note ∧ ev.note ≤ 96 := by
  rw [List.forall_iff_forall_mem]
  intro ev hev
  simp only [extractNotesCore] at hev
  rw [segmentNotes_eq_runs] at hev
  rcases List.mem_filterMap.1 hev with ⟨r, hr, hrev⟩
  rcases runToEvent_some hrev with ⟨hpos, _, hnote, _⟩
  have hval : r.1 = 0 ∨ r.1 ∈ medianFilter
      ((frameStarts data.length).map fun i => framePitch data rawData sr i) 7 :=
    runsAux_val _ 0 0 0 r hr
  rcases hval with h0 | hmem
  · rw [h0] at hpos
    exact absurd hpos (lt_irrefl 0)
  · have hpf : r.1 ∈ (frameStarts data.length).map
        fun i => framePitch data rawData sr i :=
      medianFilter_mem _ 7 r.1 hmem
    rcases List.mem_map.1 hpf with ⟨i, _, hpi⟩
    have hcases : framePitch data rawData sr i = 0 ∨
        (36 ≤ framePitch data rawData sr i ∧ framePitch data rawData sr i ≤ 96) := by
      simp only [framePitch]
      by_cases h1 : 1/50 < frameRms rawData i
      · rw [if_pos h1]
        by_cases h2 : 75 < detectPitchAMDF ((data.drop i).take 1024) sr ∧
            detectPitchAMDF ((data.drop i).take 1024) sr < 1200
        · rw [if_pos h2]
          right
          exact midiRound_bounds _ h2.1 h2.2
        · rw [if_neg h2]
          left
          rfl
      · rw [if_neg h1]
        left
        rfl
    rw [hpi] at hcases
    rcases hcases with h0 | hbound
    · rw [h0] at hpos
      exact absurd hpos (lt_irrefl 0)
    · rw [hnote]
      exact hbound

/-- C8: the Note Event list returned by extraction is time-ordered — each
event's start time is at most the start time of every later event (start
times are the frame times `256 * k / sampleRate` at increasing run start
indices). -/
theorem extractNotes_time_ordered (data rawData : List ℚ) (sr : ℚ)
    (hsr : 0 < sr) :
    ((extractNotesCore data rawData sr).map NoteEv.start).Pairwise (· ≤ ·) := by
  simp only [extractNotesCore, frameStarts]
  rw [segmentNotes_eq_runs, List.pairwise_map, List.pairwise_filterMap]
  have hsrR : (0 : ℝ) < (sr : ℝ) := by exact_mod_cast hsr
  have hfd : (0 : ℝ) < 256 / (sr : ℝ) := by positivity
  have hlen : (medianFilter
      ((List.range' 0 ((data.length - 1024 + 255) / 256) 256).map
        fun i => framePitch data rawData sr i) 7).length
      = (data.length - 1024 + 255) / 256 := by
    rw [medianFilter_length, List.length_map, List.length_range']
  refine List.Pairwise.imp_of_mem ?_
    (runsAux_pairwise_start _ 0 0 0 (le_refl 0))
  intro r r' hrmem hrmem' hle ev hev ev' hev'
  rw [Option.mem_def] at hev hev'
  obtain ⟨_, _, _, hstart⟩ := runToEvent_some hev
  obtain ⟨_, _, _, hstart'⟩ := runToEvent_some hev'
  have hlt' : r'.2.1 < r'.2.2 := runToEvent_start_lt_end hev' hfd
  have hend' := runsAux_end_le _ 0 0 0 r' hrmem'
  rw [hlen] at hend'
  have hk' : r'.2.1 < (data.length - 1024 + 255) / 256 := by omega
  have hk : r.2.1 < (data.length - 1024 + 255) / 256 := by omega
  rw [hstart, hstart',
    timeSteps_getD ((data.length - 1024 + 255) / 256) r.2.1 (sr : ℝ) hk,
    timeSteps_getD ((data.length - 1024 + 255) / 256) r'.2.1 (sr : ℝ) hk']
  gcongr

/-- C8 (witness): the time-ordering theorem instantiated at the empty
buffer and sample rate 44100. -/
theorem extractNotes_time_ordered_witness :
    (0 : ℚ) < 44100 ∧
    ((extractNotesCore [] [] 44100).map NoteEv.start).Pairwise (· ≤ ·) :=
  ⟨by norm_num, extractNotes_time_ordered [] [] 44100 (by norm_num)⟩

/-! ## Claim C6 -/

/-- C6: seconds convert to ticks as `round(seconds * 960)` (960 ticks per
second at the fixed 120 BPM tempo with 480 ticks per quarter), and encoding
the single Note Event `{note: 69, start: 0, duration: 0.5, velocity: 1}`
produces the full container: MThd with division 480, a 43-byte track with
tempo meta `07 A1 20`, the track name, a note-on after delta time `0`
(VLQ byte `0x00`), the matching note-off after delta time exactly `480`
ticks (VLQ bytes `0x83 0x60 = 131 96`), and end of track. -/
theorem midi_ticks_and_deltas :
    (∀ n : NoteEv ℚ, noteStartTick n = round (n.start * 960) ∧
        noteEndTick n = round ((n.start + n.duration) * 960)) ∧
    createMidiBlobFromNotes [⟨69, 0, 1/2, 1⟩] virtuosoName = some
      [77, 84, 104, 100, 0, 0, 0, 6, 0, 0, 0, 1, 1, 224,
       77, 84, 114, 107, 0, 0, 0, 43,
       0, 255, 81, 3, 7, 161, 32,
       0, 255, 3, 19,
       86, 105, 114, 116, 117, 111, 115, 111, 32, 73, 110, 115, 116, 114,
       117, 109, 101, 110, 116,
       0, 144, 69, 127,
       131, 96, 128, 69, 0,
       0, 255, 47, 0] :=
  ⟨fun n => ⟨rfl, rfl⟩, by decide⟩
